import Mathlib

/-!
Shallow embedding of the credential-pool core of the
`opencode-anthropic-multi-auth` repository.

Modelled modules:
  * `src/types.ts`   — `StoredAccount`, `AccountStorage`, `QuotaResponse`
  * storage module (`normalizeStorage`, `loadAccounts`, `saveAccounts`,
    `removeAccount`)
  * quota module (`getUtilization`, `pickRoundRobinIndex`, `selectBestAccount`)
  * `src/oauth.ts`   — `refreshAllAccounts`
  * `src/accounts.ts` — `AccountManager` (`handleRateLimit`, `getAvailableIndexes`)

Conventions of the embedding:
  * Epoch-millisecond timestamps and JavaScript `number` indexes are `Int`
    (`Math.trunc` is the identity on the integral values in scope).
  * Utilization values are `ℚ` (finite JSON numbers; ordering is exact).
  * `undefined` / missing JSON fields are `Option`.
  * Side effects are made explicit: file writes become returned
    `AccountStorage` values (the content that `saveAccounts` would write),
    thrown exceptions become `Except`.
  * Network calls (`fetchQuota`, `refreshToken`) are oracles passed in as
    functions `Nat → Option _` giving each index's outcome, since the real
    functions return data-or-absence / success-or-throw.
  * Each selection / load pass samples `Date.now()` a handful of times in
    the source; the embedding uses a single `now` per pass (time does not
    advance inside a pass).
-/

/-- `StoredAccount` from `src/types.ts`.  The TypeScript interface declares
`refresh : string` required, but `normalizeStorage` copies whatever value the
raw record carries, so the embedding keeps it optional to stay faithful to
the runtime behaviour. -/
structure StoredAccount where
  email : Option String := none
  refresh : Option String := none
  access : Option String := none
  expires : Option Int := none
  addedAt : Int := 0
  lastUsed : Option Int := none
  label : Option String := none
  rateLimitedUntil : Option Int := none
  enabled : Bool := true
deriving DecidableEq, Repr

/-- `AccountStorage` from `src/types.ts` (the persisted pool document). -/
structure AccountStorage where
  version : Nat := 1
  accounts : List StoredAccount := []
  activeIndex : Int := 0
deriving DecidableEq, Repr

/-- One named window of `QuotaResponse` (`{ utilization: number; resets_at?: string }`). -/
structure QuotaWindow where
  utilization : ℚ
  resets_at : Option String := none
deriving DecidableEq, Repr

/-- `QuotaResponse` from `src/types.ts`: optional five-hour and seven-day
windows.  A window that is present but lacks a numeric `utilization` field
behaves exactly like an absent window in `getUtilization`, so the embedding
only represents well-formed windows. -/
structure QuotaResponse where
  five_hour : Option QuotaWindow := none
  seven_day : Option QuotaWindow := none
deriving DecidableEq, Repr

/-- A raw persisted account record before normalization: every field may be
absent (or of the wrong type, which the source treats identically to absent
via its `typeof` guards). -/
structure RawAccount where
  email : Option String := none
  refresh : Option String := none
  access : Option String := none
  expires : Option Int := none
  addedAt : Option Int := none
  lastUsed : Option Int := none
  label : Option String := none
  rateLimitedUntil : Option Int := none
  enabled : Option Bool := none
deriving DecidableEq, Repr

/-- The result of `JSON.parse` on a persisted file, at the resolution
`normalizeStorage` inspects it:
  * `nonObject` — a falsy value or a non-object (`null`, number, string,
    boolean): the `!input || typeof input !== "object"` guard fires;
  * `object accounts? activeIndex?` — an object (or array); `accounts?` is
    `some l` when the `accounts` field is an array (`Array.isArray`),
    otherwise `none`; `activeIndex?` is `some n` when the `activeIndex`
    field is a number, otherwise `none`. -/
inductive ParsedJson where
  | nonObject : ParsedJson
  | object (accounts : Option (List RawAccount)) (activeIndex : Option Int) : ParsedJson
deriving DecidableEq, Repr

/-- Content of the persisted file: either text that `JSON.parse` rejects
(it throws a `SyntaxError`) or a parsed JSON value. -/
inductive PersistedContent where
  | invalidJson : PersistedContent
  | json (v : ParsedJson) : PersistedContent
deriving DecidableEq, Repr

/-- The error escaping `loadAccounts`: the `SyntaxError` thrown by
`JSON.parse` on malformed text (the spec's `ConfigCorruptError`).  The
source has no `try`/`catch` around the parse, so the exception propagates. -/
inductive LoadError where
  | syntaxError : LoadError
deriving DecidableEq, Repr

/-- `DEFAULT_STORAGE` / `cloneDefaultStorage()` from the storage module. -/
def cloneDefaultStorage : AccountStorage :=
  { version := 1, accounts := [], activeIndex := 0 }

/-- The per-record part of `normalizeStorage`: default `enabled` to `true`
and `addedAt` to now, and delete `rateLimitedUntil` when it is strictly
before now (`normalized.rateLimitedUntil < Date.now()`). -/
def normalizeAccount (now : Int) (r : RawAccount) : StoredAccount :=
  let normalized : StoredAccount :=
    { email := r.email
      refresh := r.refresh
      access := r.access
      expires := r.expires
      addedAt := r.addedAt.getD now
      lastUsed := r.lastUsed
      label := r.label
      rateLimitedUntil := r.rateLimitedUntil
      enabled := r.enabled.getD true }
  match r.rateLimitedUntil with
  | some t => if t < now then { normalized with rateLimitedUntil := none } else normalized
  | none => normalized

/-- `normalizeStorage` from the storage module: non-objects collapse to the
default document; accounts are normalized record-wise; `activeIndex` is
truncated and clamped into `[0, length - 1]` (`0` for an empty list). -/
def normalizeStorage (now : Int) (input : ParsedJson) : AccountStorage :=
  match input with
  | .nonObject => cloneDefaultStorage
  | .object accounts? activeIndex? =>
    let normalizedAccounts := (accounts?.getD []).map (normalizeAccount now)
    let rawActiveIndex := activeIndex?.getD 0
    let maxIndex : Int := max 0 ((normalizedAccounts.length : Int) - 1)
    let activeIndex : Int :=
      if normalizedAccounts.length = 0 then 0
      else min (max 0 rawActiveIndex) maxIndex
    { version := 1, accounts := normalizedAccounts, activeIndex := activeIndex }

/-- JSON serialization of a normalized account record: every present field
round-trips through `JSON.stringify` / `JSON.parse` unchanged. -/
def StoredAccount.toRaw (a : StoredAccount) : RawAccount :=
  { email := a.email
    refresh := a.refresh
    access := a.access
    expires := a.expires
    addedAt := some a.addedAt
    lastUsed := a.lastUsed
    label := a.label
    rateLimitedUntil := a.rateLimitedUntil
    enabled := some a.enabled }

/-- JSON serialization of a typed `AccountStorage` value, as
`normalizeStorage` (which takes `unknown`) re-inspects it inside
`saveAccounts`. -/
def AccountStorage.toParsed (d : AccountStorage) : ParsedJson :=
  .object (some (d.accounts.map StoredAccount.toRaw)) (some d.activeIndex)

/-- The document content `saveAccounts` writes to disk: normalization is
re-applied to the data before writing (`const normalized = normalizeStorage(data)`). -/
def saveAccounts (now : Int) (data : AccountStorage) : AccountStorage :=
  normalizeStorage now data.toParsed

/-- `loadAccounts` from the storage module.  `content = none` models a
missing file (`fs.existsSync` false): the default document is returned.
Text that `JSON.parse` rejects raises a `SyntaxError`, which nothing in the
function catches; parsed JSON is normalized. -/
def loadAccounts (now : Int) (content : Option PersistedContent) :
    Except LoadError AccountStorage :=
  match content with
  | none => .ok cloneDefaultStorage
  | some .invalidJson => .error .syntaxError
  | some (.json v) => .ok (normalizeStorage now v)

/-- `removeAccount` from the storage module, applied to the already-loaded
document `data`.  Returns the document the function returns, together with
the file content written by the `saveAccounts` call (`none` when the
out-of-range guard returns early without writing). -/
def removeAccount (now : Int) (index : Int) (data : AccountStorage) :
    AccountStorage × Option AccountStorage :=
  if index < 0 ∨ (data.accounts.length : Int) ≤ index then (data, none)
  else
    let accounts := data.accounts.eraseIdx index.toNat
    let activeIndex : Int :=
      if accounts.length = 0 then 0
      else if index < data.activeIndex then data.activeIndex - 1
      else if (accounts.length : Int) ≤ data.activeIndex then (accounts.length : Int) - 1
      else data.activeIndex
    let result : AccountStorage :=
      { version := data.version, accounts := accounts, activeIndex := activeIndex }
    (result, some (saveAccounts now result))

/-! ## Quota module: `getUtilization`, `pickRoundRobinIndex`, `selectBestAccount` -/

/-- `getUtilization` from the quota module: prefer the five-hour window's
utilization, fall back to the seven-day window, otherwise `null`. -/
def getUtilization (quota : QuotaResponse) : Option ℚ :=
  match quota.five_hour with
  | some w => some w.utilization
  | none =>
    match quota.seven_day with
    | some w => some w.utilization
    | none => none

/-- The eligibility predicate shared verbatim by the loop in
`selectBestAccount` (quota module) and `AccountManager.getAvailableIndexes`
(`src/accounts.ts`): skip when `enabled === false`, skip when
`rateLimitedUntil` is a number `> now`. -/
def isEligible (now : Int) (a : StoredAccount) : Bool :=
  a.enabled &&
    (match a.rateLimitedUntil with
     | some t => decide (t ≤ now)
     | none => true)

/-- The `eligibleIndexes` collection loop of `selectBestAccount`, also
`AccountManager.getAvailableIndexes`: indexes of eligible accounts, in
ascending order. -/
def eligibleIndexes (now : Int) (accounts : List StoredAccount) : List Nat :=
  (List.range accounts.length).filter fun i =>
    match accounts.get? i with
    | some a => isEligible now a
    | none => false

/-- The per-index body of the `Promise.allSettled` probe in
`selectBestAccount`: `null` when the account has no access token, when
`fetchQuota` fails (oracle `quota i = none`), or when `getUtilization`
finds no window; otherwise the utilization value.  The probe functions
never reject, so `allSettled` fulfils every entry and the
`status === "fulfilled"` filter keeps them all. -/
def probedUtilization (quota : Nat → Option QuotaResponse)
    (accounts : List StoredAccount) (i : Nat) : Option ℚ :=
  match accounts.get? i with
  | none => none
  | some a =>
    match a.access with
    | none => none
    | some _ =>
      match quota i with
      | none => none
      | some q => getUtilization q

/-- One entry of the `successful` array in `selectBestAccount`:
`{ index, utilization }`. -/
structure SuccessEntry where
  index : Nat
  utilization : ℚ
deriving DecidableEq, Repr

/-- The `successful` array of `selectBestAccount`: eligible indexes (in
order) whose probe produced a utilization value. -/
def successResults (now : Int) (quota : Nat → Option QuotaResponse)
    (accounts : List StoredAccount) : List SuccessEntry :=
  (eligibleIndexes now accounts).filterMap fun i =>
    (probedUtilization quota accounts i).map fun u => ⟨i, u⟩

/-- `lastUsed ?? Number.NEGATIVE_INFINITY`, the tie-break key of the
`successful.sort` comparator: absent `lastUsed` sorts below every number. -/
def lastUsedBot (accounts : List StoredAccount) (i : Nat) : WithBot Int :=
  match (accounts.get? i).bind (·.lastUsed) with
  | none => ⊥
  | some t => (t : WithBot Int)

/-- The sort key of the `successful.sort` comparator in `selectBestAccount`:
ascending utilization, ties broken by `lastUsed` with absent = `-∞` (two
absent values compare equal — the comparator's `NaN` is treated as `0` by
`Array.prototype.sort`). -/
def succKey (accounts : List StoredAccount) (s : SuccessEntry) :
    Lex (ℚ × WithBot Int) :=
  toLex (s.utilization, lastUsedBot accounts s.index)

/-- First minimal element of a list under a key into a linear order.
`Array.prototype.sort` is stable and the source comparator is exactly the
order induced by `succKey`, so `successful.sort(cmp)[0]` is the first
element attaining the minimal key — which is what this function returns. -/
def firstMinBy {α κ : Type} [LinearOrder κ] (key : α → κ) : List α → Option α
  | [] => none
  | x :: xs =>
    match firstMinBy key xs with
    | none => some x
    | some y => if key y < key x then some y else some x

/-- `lastUsed ?? Number.POSITIVE_INFINITY` as read by the round-robin loop:
absent `lastUsed` (or an absent account) sorts above every number. -/
def lastUsedTop (accounts : List StoredAccount) (i : Nat) : WithTop Int :=
  match (accounts.get? i).bind (·.lastUsed) with
  | none => ⊤
  | some t => (t : WithTop Int)

/-- `pickRoundRobinIndex` from the quota module: first eligible index whose
account was never used; otherwise the scan keeping the first index whose
`lastUsed` (absent = `+∞`) is strictly below the running minimum, started
at `eligibleIndexes[0] ?? 0`. -/
def pickRoundRobinIndex (accounts : List StoredAccount)
    (eligible : List Nat) : Nat :=
  match eligible.find? (fun i => ((accounts.get? i).bind (·.lastUsed)).isNone) with
  | some firstUnused => firstUnused
  | none =>
    let scan := eligible.foldl
      (fun (state : Nat × WithTop Int) i =>
        let lastUsed := lastUsedTop accounts i
        if lastUsed < state.2 then (i, lastUsed) else state)
      (eligible.headD 0, (⊤ : WithTop Int))
    scan.1

/-- `selectBestAccount` from the quota module, for a pass at time `now`
with probe outcomes given by the oracle `quota`.

The source first runs `refreshAllAccounts` when a `storagePath` is given;
that pass (modelled separately below) only rewrites `refresh` / `access` /
`expires` and so does not change eligibility, `lastUsed` or the probe
oracle's index space — the embedding therefore takes the post-refresh
account list directly (this is literally the `storagePath === undefined`
path). -/
def selectBestAccount (now : Int) (quota : Nat → Option QuotaResponse)
    (accounts : List StoredAccount) : Nat :=
  if accounts.length = 0 then 0
  else
    let eligible := eligibleIndexes now accounts
    if eligible.isEmpty then 0
    else
      let successful := successResults now quota accounts
      if successful.isEmpty then pickRoundRobinIndex accounts eligible
      else
        match firstMinBy (succKey accounts) successful with
        | some s => s.index
        | none => 0

/-! ## `src/oauth.ts`: `refreshAllAccounts` -/

/-- The success payload of `refreshToken` (the `refresh_token` grant):
new refresh secret, access secret and absolute expiry. -/
structure TokenRefreshResult where
  refresh : String
  access : String
  expires : Int
deriving DecidableEq, Repr

/-- The `shouldRefresh` test of `refreshAllAccounts`:
`expires === undefined || expires < Date.now() + 60_000`. -/
def shouldRefresh (now : Int) (a : StoredAccount) : Bool :=
  match a.expires with
  | none => true
  | some e => decide (e < now + 60000)

/-- The loop body of `refreshAllAccounts` for one account, given the
outcome of its `refreshToken` call: on success the three token fields are
overwritten; a throw is caught (and logged) leaving the account unchanged. -/
def applyRefreshOutcome (outcome : Option TokenRefreshResult)
    (a : StoredAccount) : StoredAccount :=
  match outcome with
  | none => a
  | some t =>
    { a with refresh := some t.refresh, access := some t.access,
             expires := some t.expires }

/-- The `for` loop of `refreshAllAccounts` over the copied array `updated`:
index `i` is rewritten in place when its expiry is due, each index from its
own `refreshToken` outcome (`refreshOutcome i = none` models a caught
failure). -/
def refreshLoop (now : Int) (refreshOutcome : Nat → Option TokenRefreshResult)
    (accounts : List StoredAccount) : List StoredAccount :=
  (List.range accounts.length).foldl
    (fun updated i =>
      match updated.get? i with
      | none => updated
      | some a =>
        if shouldRefresh now a then
          updated.set i (applyRefreshOutcome (refreshOutcome i) a)
        else updated)
    accounts

/-- `refreshAllAccounts` from `src/oauth.ts`: run the refresh loop over a
copy of the account list, then persist exactly once.  Returns the updated
list, the indexes for which a refresh was attempted (in loop order), and
the list of file contents written (`saveAccounts` is called a single time,
after the loop). -/
def refreshAllAccounts (now : Int)
    (refreshOutcome : Nat → Option TokenRefreshResult)
    (accounts : List StoredAccount) (activeIndex : Int) :
    List StoredAccount × List Nat × List AccountStorage :=
  let updated := refreshLoop now refreshOutcome accounts
  let attempted := (List.range accounts.length).filter fun i =>
    match accounts.get? i with
    | some a => shouldRefresh now a
    | none => false
  let write := saveAccounts now
    { version := 1, accounts := updated, activeIndex := activeIndex }
  (updated, attempted, [write])

/-! ## `src/accounts.ts`: `AccountManager` -/

/-- The in-memory state of an `AccountManager`: the account array and the
active index (a `Nat`: the constructor and every assignment store either a
clamped value or a `selectBestAccount` result). -/
structure AccountManagerState where
  accounts : List StoredAccount
  activeIndex : Nat
deriving DecidableEq, Repr

/-- `AccountManager.normalizeActiveIndex`: `0` for an empty pool, otherwise
`Math.min(Math.max(0, Math.trunc(index)), length - 1)`. -/
def normalizeActiveIndex (accounts : List StoredAccount) (index : Int) : Nat :=
  if accounts.length = 0 then 0
  else (min (max 0 index) ((accounts.length : Int) - 1)).toNat

/-- `AccountManager.getActive`: the account at `activeIndex`, if any. -/
def AccountManagerState.getActive (m : AccountManagerState) : Option StoredAccount :=
  m.accounts.get? m.activeIndex

/-- The file content written by `AccountManager.persist()`:
`saveAccounts({version: 1, accounts, activeIndex: normalizeActiveIndex(activeIndex)})`. -/
def managerPersistContent (now : Int) (m : AccountManagerState) : AccountStorage :=
  saveAccounts now
    { version := 1, accounts := m.accounts,
      activeIndex := (normalizeActiveIndex m.accounts m.activeIndex : Int) }

/-- `AccountManager.handleRateLimit(retryAfterMs)` from `src/accounts.ts`.
Returns the new manager state, the sequence of file contents persisted, and
the returned credential (`none` models `null`).

Steps, as in the source: if there is no active account return `null`;
otherwise set the active account's
`rateLimitedUntil = Date.now() + Math.max(0, retryAfterMs)` and persist;
compute `getAvailableIndexes()`; if empty return `null`; run
`selectBestAccount` on the (mutated) account array; if the result is not an
available index return `null`; otherwise switch `activeIndex`, persist
again, and return the new active account. -/
def handleRateLimit (now : Int) (quota : Nat → Option QuotaResponse)
    (retryAfterMs : Int) (m : AccountManagerState) :
    AccountManagerState × List AccountStorage × Option StoredAccount :=
  match m.accounts.get? m.activeIndex with
  | none => (m, [], none)
  | some current =>
    let marked := { current with rateLimitedUntil := some (now + max 0 retryAfterMs) }
    let accounts1 := m.accounts.set m.activeIndex marked
    let m1 : AccountManagerState := { m with accounts := accounts1 }
    let write1 := managerPersistContent now m1
    let available := eligibleIndexes now accounts1
    if available.isEmpty then (m1, [write1], none)
    else
      let nextIndex := selectBestAccount now quota accounts1
      if nextIndex ∈ available then
        let m2 : AccountManagerState := { accounts := accounts1, activeIndex := nextIndex }
        (m2, [write1, managerPersistContent now m2], accounts1.get? nextIndex)
      else (m1, [write1], none)

/-- `AccountManager.init` (without the refresh pass inside
`selectBestAccount`, see there): load the store — a `JSON.parse` failure
propagates uncaught — select the best index, construct the manager (the
constructor clamps the index), persist once. -/
def accountManagerInit (now : Int) (quota : Nat → Option QuotaResponse)
    (content : Option PersistedContent) :
    Except LoadError (AccountManagerState × List AccountStorage) :=
  match loadAccounts now content with
  | .error e => .error e
  | .ok data =>
    let idx := selectBestAccount now quota data.accounts
    let m : AccountManagerState :=
      { accounts := data.accounts,
        activeIndex := normalizeActiveIndex data.accounts (idx : Int) }
    .ok (m, [managerPersistContent now m])

/-! ## Helper lemmas -/

theorem firstMinBy_eq_none_iff {α κ : Type} [LinearOrder κ] (key : α → κ) (l : List α) :
    firstMinBy key l = none ↔ l = [] := by
  cases l with
  | nil => simp [firstMinBy]
  | cons x xs =>
    simp only [firstMinBy]
    cases firstMinBy key xs with
    | none => simp
    | some y =>
      by_cases hlt : key y < key x <;> simp [hlt]

theorem firstMinBy_spec {α κ : Type} [LinearOrder κ] (key : α → κ) :
    ∀ (l : List α) (m : α), firstMinBy key l = some m →
      m ∈ l ∧ ∀ x ∈ l, key m ≤ key x := by
  intro l
  induction l with
  | nil => intro m h; simp [firstMinBy] at h
  | cons x xs ih =>
    intro m h
    cases hxs : firstMinBy key xs with
    | none =>
      have hnil : xs = [] := (firstMinBy_eq_none_iff key xs).mp hxs
      subst hnil
      simp only [firstMinBy, Option.some.injEq] at h
      subst h
      simp
    | some y =>
      obtain ⟨hy_mem, hy_min⟩ := ih y hxs
      simp only [firstMinBy, hxs] at h
      by_cases hlt : key y < key x
      · rw [if_pos hlt] at h
        simp only [Option.some.injEq] at h
        subst h
        refine ⟨List.mem_cons_of_mem _ hy_mem, ?_⟩
        intro z hz
        rcases List.mem_cons.mp hz with rfl | hz'
        · exact le_of_lt hlt
        · exact hy_min z hz'
      · rw [if_neg hlt] at h
        simp only [Option.some.injEq] at h
        subst h
        refine ⟨List.mem_cons_self _ _, ?_⟩
        intro z hz
        rcases List.mem_cons.mp hz with rfl | hz'
        · exact le_refl _
        · exact le_trans (le_of_not_lt hlt) (hy_min z hz')

theorem mem_eligibleIndexes {now : Int} {accounts : List StoredAccount} {i : Nat} :
    i ∈ eligibleIndexes now accounts ↔
      ∃ a, accounts.get? i = some a ∧ isEligible now a = true := by
  unfold eligibleIndexes
  rw [List.mem_filter, List.mem_range]
  constructor
  · rintro ⟨hi, hcond⟩
    cases h : accounts.get? i with
    | none => rw [h] at hcond; simp at hcond
    | some a => rw [h] at hcond; exact ⟨a, rfl, hcond⟩
  · rintro ⟨a, ha, helig⟩
    have hi : i < accounts.length := by
      by_contra hge
      rw [List.get?_eq_none.mpr (le_of_not_lt hge)] at ha
      simp at ha
    exact ⟨hi, by rw [ha]; exact helig⟩

theorem mem_successResults {now : Int} {quota : Nat → Option QuotaResponse}
    {accounts : List StoredAccount} {s : SuccessEntry} :
    s ∈ successResults now quota accounts ↔
      s.index ∈ eligibleIndexes now accounts ∧
        probedUtilization quota accounts s.index = some s.utilization := by
  unfold successResults
  rw [List.mem_filterMap]
  constructor
  · rintro ⟨i, hi_mem, hmap⟩
    cases hp : probedUtilization quota accounts i with
    | none => rw [hp] at hmap; simp at hmap
    | some u =>
      rw [hp] at hmap
      simp only [Option.map_some'] at hmap
      cases hmap
      exact ⟨hi_mem, hp⟩
  · rintro ⟨hmem, hp⟩
    exact ⟨s.index, hmem, by rw [hp]; rfl⟩

theorem headD_mem {α : Type} {l : List α} (h : l ≠ []) (d : α) : l.headD d ∈ l := by
  cases l with
  | nil => exact absurd rfl h
  | cons x xs => exact List.mem_cons_self _ _

theorem lastUsedTop_eq_top_iff {accounts : List StoredAccount} {i : Nat} :
    lastUsedTop accounts i = ⊤ ↔ ((accounts.get? i).bind (·.lastUsed)) = none := by
  unfold lastUsedTop
  cases (accounts.get? i).bind (·.lastUsed) with
  | none => simp
  | some t =>
    simp only [iff_false, ne_eq]
    constructor
    · intro h; exact absurd h (by exact WithTop.coe_ne_top)
    · intro h; simp at h

theorem roundRobinFold_spec (accounts : List StoredAccount) :
    ∀ (l : List Nat) (s₀ : Nat) (o₀ : WithTop Int),
      (l.foldl (fun (state : Nat × WithTop Int) i =>
          let lastUsed := lastUsedTop accounts i
          if lastUsed < state.2 then (i, lastUsed) else state) (s₀, o₀) = (s₀, o₀) ∧
        ∀ i ∈ l, o₀ ≤ lastUsedTop accounts i) ∨
      ((l.foldl (fun (state : Nat × WithTop Int) i =>
          let lastUsed := lastUsedTop accounts i
          if lastUsed < state.2 then (i, lastUsed) else state) (s₀, o₀)).1 ∈ l ∧
        (l.foldl (fun (state : Nat × WithTop Int) i =>
          let lastUsed := lastUsedTop accounts i
          if lastUsed < state.2 then (i, lastUsed) else state) (s₀, o₀)).2 =
          lastUsedTop accounts
            (l.foldl (fun (state : Nat × WithTop Int) i =>
              let lastUsed := lastUsedTop accounts i
              if lastUsed < state.2 then (i, lastUsed) else state) (s₀, o₀)).1 ∧
        (l.foldl (fun (state : Nat × WithTop Int) i =>
          let lastUsed := lastUsedTop accounts i
          if lastUsed < state.2 then (i, lastUsed) else state) (s₀, o₀)).2 < o₀ ∧
        ∀ i ∈ l,
          (l.foldl (fun (state : Nat × WithTop Int) i =>
            let lastUsed := lastUsedTop accounts i
            if lastUsed < state.2 then (i, lastUsed) else state) (s₀, o₀)).2 ≤
            lastUsedTop accounts i) := by
  intro l
  induction l with
  | nil => intro s₀ o₀; left; simp
  | cons j l ih =>
    intro s₀ o₀
    simp only [List.foldl_cons]
    by_cases hj : lastUsedTop accounts j < o₀
    · rw [if_pos hj]
      rcases ih j (lastUsedTop accounts j) with ⟨heq, hall⟩ | ⟨hmem, hval, hlt, hall⟩
      · right
        rw [heq]
        refine ⟨List.mem_cons_self _ _, rfl, hj, ?_⟩
        intro i hi
        rcases List.mem_cons.mp hi with rfl | hi'
        · exact le_refl _
        · exact hall i hi'
      · right
        refine ⟨List.mem_cons_of_mem _ hmem, hval, lt_trans hlt hj, ?_⟩
        intro i hi
        rcases List.mem_cons.mp hi with rfl | hi'
        · exact le_of_lt hlt
        · exact hall i hi'
    · rw [if_neg hj]
      rcases ih s₀ o₀ with ⟨heq, hall⟩ | ⟨hmem, hval, hlt, hall⟩
      · left
        refine ⟨heq, ?_⟩
        intro i hi
        rcases List.mem_cons.mp hi with rfl | hi'
        · exact le_of_not_lt hj
        · exact hall i hi'
      · right
        refine ⟨List.mem_cons_of_mem _ hmem, hval, hlt, ?_⟩
        intro i hi
        rcases List.mem_cons.mp hi with rfl | hi'
        · exact le_trans (le_of_lt hlt) (le_of_not_lt hj)
        · exact hall i hi'

theorem pickRoundRobinIndex_spec (accounts : List StoredAccount)
    (eligible : List Nat) (h : eligible ≠ []) :
    pickRoundRobinIndex accounts eligible ∈ eligible ∧
      ((∃ i ∈ eligible, ((accounts.get? i).bind (·.lastUsed)) = none) →
        ((accounts.get? (pickRoundRobinIndex accounts eligible)).bind (·.lastUsed)) = none) ∧
      ((∀ i ∈ eligible, ((accounts.get? i).bind (·.lastUsed)) ≠ none) →
        ∀ i ∈ eligible,
          lastUsedTop accounts (pickRoundRobinIndex accounts eligible) ≤
            lastUsedTop accounts i) := by
  unfold pickRoundRobinIndex
  cases hfind : eligible.find?
      (fun i => ((accounts.get? i).bind (·.lastUsed)).isNone) with
  | some firstUnused =>
    have hmem := List.mem_of_find?_eq_some hfind
    have hp := List.find?_some hfind
    simp only [Option.isNone_iff_eq_none] at hp
    refine ⟨hmem, fun _ => hp, fun hallused => absurd hp (hallused _ hmem)⟩
  | none =>
    have hnone := List.find?_eq_none.mp hfind
    simp only [Option.isNone_iff_eq_none] at hnone
    rcases roundRobinFold_spec accounts eligible (eligible.headD 0) ⊤ with
      ⟨heq, hall⟩ | ⟨hmem, hval, _, hall⟩
    · rw [heq]
      refine ⟨headD_mem h 0, ?_, ?_⟩
      · rintro ⟨i, hi, hunused⟩
        exact absurd hunused (hnone i hi)
      · intro hallused i hi
        have htop : (⊤ : WithTop Int) ≤ lastUsedTop accounts i := hall i hi
        exact absurd (lastUsedTop_eq_top_iff.mp (top_le_iff.mp htop)) (hallused i hi)
    · refine ⟨hmem, ?_, ?_⟩
      · rintro ⟨i, hi, hunused⟩
        exact absurd hunused (hnone i hi)
      · intro _ i hi
        exact hval ▸ hall i hi

theorem eligibleIndexes_ne_nil_length {now : Int} {accounts : List StoredAccount}
    (h : eligibleIndexes now accounts ≠ []) : accounts.length ≠ 0 := by
  intro hlen0
  apply h
  unfold eligibleIndexes
  rw [hlen0]
  rfl

theorem selectBestAccount_eq_of_empty_success {now : Int}
    {quota : Nat → Option QuotaResponse} {accounts : List StoredAccount}
    (hlen : accounts.length ≠ 0)
    (helig : (eligibleIndexes now accounts).isEmpty = false)
    (hsucc : successResults now quota accounts = []) :
    selectBestAccount now quota accounts =
      pickRoundRobinIndex accounts (eligibleIndexes now accounts) := by
  unfold selectBestAccount
  rw [if_neg hlen]
  simp only [helig, hsucc]
  rfl

theorem selectBestAccount_eq_of_min {now : Int}
    {quota : Nat → Option QuotaResponse} {accounts : List StoredAccount}
    {s : SuccessEntry}
    (hlen : accounts.length ≠ 0)
    (helig : (eligibleIndexes now accounts).isEmpty = false)
    (hsucc : (successResults now quota accounts).isEmpty = false)
    (hmin : firstMinBy (succKey accounts) (successResults now quota accounts) = some s) :
    selectBestAccount now quota accounts = s.index := by
  unfold selectBestAccount
  rw [if_neg hlen]
  simp only [helig, hsucc, hmin]
  rfl

theorem isEmpty_false_of_ne_nil {α : Type} {l : List α} (h : l ≠ []) :
    l.isEmpty = false := by
  cases l with
  | nil => exact absurd rfl h
  | cons x xs => rfl

/-- Core selection lemma: with any eligible credential present,
`selectBestAccount` returns an eligible index. -/
theorem selectBestAccount_mem (now : Int) (quota : Nat → Option QuotaResponse)
    (accounts : List StoredAccount) (h : eligibleIndexes now accounts ≠ []) :
    selectBestAccount now quota accounts ∈ eligibleIndexes now accounts := by
  have hlen := eligibleIndexes_ne_nil_length h
  have helig := isEmpty_false_of_ne_nil h
  cases hsucc : successResults now quota accounts with
  | nil =>
    rw [selectBestAccount_eq_of_empty_success hlen helig hsucc]
    exact (pickRoundRobinIndex_spec accounts _ h).1
  | cons s0 rest =>
    have hne : successResults now quota accounts ≠ [] := by rw [hsucc]; simp
    have hsuccF := isEmpty_false_of_ne_nil hne
    cases hmin : firstMinBy (succKey accounts) (successResults now quota accounts) with
    | none => exact absurd ((firstMinBy_eq_none_iff _ _).mp hmin) hne
    | some m =>
      rw [selectBestAccount_eq_of_min hlen helig hsuccF hmin]
      exact (mem_successResults.mp (firstMinBy_spec _ _ _ hmin).1).1

/-- Core selection lemma for the quota-ranked tier: with at least one probe
success, the returned index is an eligible success whose
(utilization, lastUsed)-key is lexicographically minimal among all eligible
probe successes. -/
theorem selectBestAccount_min (now : Int) (quota : Nat → Option QuotaResponse)
    (accounts : List StoredAccount)
    (h : successResults now quota accounts ≠ []) :
    ∃ u, selectBestAccount now quota accounts ∈ eligibleIndexes now accounts ∧
      probedUtilization quota accounts (selectBestAccount now quota accounts) = some u ∧
      ∀ j ∈ eligibleIndexes now accounts, ∀ v, probedUtilization quota accounts j = some v →
        u < v ∨ (u = v ∧
          lastUsedBot accounts (selectBestAccount now quota accounts) ≤ lastUsedBot accounts j) := by
  obtain ⟨s0, hs0⟩ := List.exists_mem_of_ne_nil _ h
  have helig_ne : eligibleIndexes now accounts ≠ [] := by
    intro hnil
    have := (mem_successResults.mp hs0).1
    rw [hnil] at this
    simp at this
  have hlen := eligibleIndexes_ne_nil_length helig_ne
  have helig := isEmpty_false_of_ne_nil helig_ne
  have hsuccF := isEmpty_false_of_ne_nil h
  cases hmin : firstMinBy (succKey accounts) (successResults now quota accounts) with
  | none => exact absurd ((firstMinBy_eq_none_iff _ _).mp hmin) h
  | some m =>
    obtain ⟨hm_mem, hm_min⟩ := firstMinBy_spec _ _ _ hmin
    obtain ⟨hm_elig, hm_prob⟩ := mem_successResults.mp hm_mem
    rw [selectBestAccount_eq_of_min hlen helig hsuccF hmin]
    refine ⟨m.utilization, hm_elig, hm_prob, ?_⟩
    intro j hj v hv
    have hjv_mem : (⟨j, v⟩ : SuccessEntry) ∈ successResults now quota accounts :=
      mem_successResults.mpr ⟨hj, hv⟩
    have hkey := hm_min _ hjv_mem
    unfold succKey at hkey
    rcases (Prod.Lex.le_iff _ _).mp hkey with hlt | ⟨heq, hle⟩
    · exact Or.inl hlt
    · exact Or.inr ⟨heq, hle⟩

/-- The normalization pass keeps or clears `rateLimitedUntil` exactly by the
strict comparison `rateLimitedUntil < Date.now()` the source performs. -/
theorem normalizeAccount_rateLimitedUntil (now : Int) (r : RawAccount) :
    (normalizeAccount now r).rateLimitedUntil =
      match r.rateLimitedUntil with
      | some t => if t < now then none else some t
      | none => none := by
  obtain ⟨email, refresh, access, expires, addedAt, lastUsed, label, rl, enabled⟩ := r
  unfold normalizeAccount
  dsimp only
  cases rl with
  | none => rfl
  | some t =>
    by_cases hlt : t < now <;> simp [hlt]

theorem normalizeAccount_keeps_future (now : Int) (r : RawAccount) (t : Int)
    (hrl : r.rateLimitedUntil = some t) (ht : now ≤ t) :
    (normalizeAccount now r).rateLimitedUntil = some t := by
  rw [normalizeAccount_rateLimitedUntil, hrl]
  simp [not_lt.mpr ht]

theorem normalizeAccount_clears_past (now : Int) (r : RawAccount) (t : Int)
    (hrl : r.rateLimitedUntil = some t) (ht : t < now) :
    (normalizeAccount now r).rateLimitedUntil = none := by
  rw [normalizeAccount_rateLimitedUntil, hrl]
  simp [ht]

theorem normalizeAccount_not_past (now : Int) (r : RawAccount) (t : Int)
    (h : (normalizeAccount now r).rateLimitedUntil = some t) : ¬ t < now := by
  rw [normalizeAccount_rateLimitedUntil] at h
  cases hrl : r.rateLimitedUntil with
  | none => rw [hrl] at h; simp at h
  | some s =>
    rw [hrl] at h
    by_cases hlt : s < now
    · simp [hlt] at h
    · simp [hlt] at h
      omega

theorem normalizeAccount_toRaw (now : Int) (a : StoredAccount)
    (h : ∀ t, a.rateLimitedUntil = some t → ¬ t < now) :
    normalizeAccount now a.toRaw = a := by
  obtain ⟨email, refresh, access, expires, addedAt, lastUsed, label, rl, enabled⟩ := a
  unfold StoredAccount.toRaw normalizeAccount
  dsimp only
  cases rl with
  | none => rfl
  | some t =>
    have hnl : ¬ t < now := h t rfl
    simp [hnl]

theorem normalizeAccount_idem (now : Int) (r : RawAccount) :
    normalizeAccount now (normalizeAccount now r).toRaw = normalizeAccount now r :=
  normalizeAccount_toRaw now _ (normalizeAccount_not_past now r)

/-- The `activeIndex` produced by `normalizeStorage` satisfies the document
invariant: `0` for an empty pool, otherwise `0 ≤ activeIndex < length`. -/
theorem normalizeStorage_activeIndex_invariant (now : Int) (p : ParsedJson) :
    ((normalizeStorage now p).accounts = [] → (normalizeStorage now p).activeIndex = 0) ∧
      ((normalizeStorage now p).accounts ≠ [] →
        0 ≤ (normalizeStorage now p).activeIndex ∧
          (normalizeStorage now p).activeIndex <
            ((normalizeStorage now p).accounts.length : Int)) := by
  cases p with
  | nonObject => exact ⟨fun _ => rfl, fun h => absurd rfl h⟩
  | object accounts? activeIndex? =>
    set l := (accounts?.getD []).map (normalizeAccount now) with hl
    by_cases hlen : l.length = 0
    · constructor
      · intro _
        simp [normalizeStorage, ← hl, hlen]
      · intro hne
        exact absurd (List.length_eq_zero.mp hlen) hne
    · have hpos : 0 < (l.length : Int) := by
        have := Nat.pos_of_ne_zero hlen
        exact_mod_cast this
      constructor
      · intro hnil
        have : l = [] := by
          simpa [normalizeStorage, ← hl] using hnil
        exact absurd (by rw [this]; rfl) hlen
      · intro _
        have hform : (normalizeStorage now (.object accounts? activeIndex?)).activeIndex =
            min (max 0 (activeIndex?.getD 0)) (max 0 ((l.length : Int) - 1)) := by
          simp [normalizeStorage, ← hl, hlen]
        have hlenform : (normalizeStorage now (.object accounts? activeIndex?)).accounts.length =
            l.length := by
          simp [normalizeStorage, ← hl]
        rw [hform, hlenform]
        constructor
        · exact le_min (le_max_left 0 _) (le_max_left 0 _)
        · have h1 : max 0 ((l.length : Int) - 1) < (l.length : Int) := by
            rw [max_lt_iff]
            exact ⟨hpos, by omega⟩
          exact lt_of_le_of_lt (min_le_right _ _) h1

/-- Normalization is the identity on an already-normalized document. -/
theorem normalizeStorage_toParsed_of_normalized (now : Int) (d : AccountStorage)
    (hver : d.version = 1)
    (hrl : ∀ a ∈ d.accounts, ∀ t, a.rateLimitedUntil = some t → ¬ t < now)
    (hidx0 : d.accounts = [] → d.activeIndex = 0)
    (hidx : d.accounts ≠ [] → 0 ≤ d.activeIndex ∧ d.activeIndex < (d.accounts.length : Int)) :
    normalizeStorage now d.toParsed = d := by
  obtain ⟨ver, accounts, ai⟩ := d
  simp only at hver hrl hidx0 hidx
  subst hver
  have haccounts : (accounts.map StoredAccount.toRaw).map (normalizeAccount now) =
      accounts := by
    rw [List.map_map]
    have hcong : ∀ a ∈ accounts, (normalizeAccount now ∘ StoredAccount.toRaw) a = id a := by
      intro a ha
      exact normalizeAccount_toRaw now a (hrl a ha)
    rw [List.map_congr_left hcong, List.map_id]
  by_cases hnil : accounts = []
  · subst hnil
    have hai := hidx0 rfl
    subst hai
    rfl
  · obtain ⟨hge, hlt⟩ := hidx hnil
    have hlen : accounts.length ≠ 0 := fun h0 => hnil (List.length_eq_zero.mp h0)
    unfold normalizeStorage AccountStorage.toParsed
    simp only [Option.getD_some, haccounts]
    rw [if_neg hlen]
    simp only [AccountStorage.mk.injEq]
    refine ⟨trivial, trivial, ?_⟩
    omega

theorem normalizeStorage_version (now : Int) (p : ParsedJson) :
    (normalizeStorage now p).version = 1 := by
  cases p <;> rfl

theorem normalizeStorage_not_past (now : Int) (p : ParsedJson) :
    ∀ a ∈ (normalizeStorage now p).accounts, ∀ t,
      a.rateLimitedUntil = some t → ¬ t < now := by
  cases p with
  | nonObject => intro a ha; simp [normalizeStorage, cloneDefaultStorage] at ha
  | object accounts? activeIndex? =>
    intro a ha t hrl
    have hmem : a ∈ (accounts?.getD []).map (normalizeAccount now) := ha
    obtain ⟨r, _, hr⟩ := List.mem_map.mp hmem
    subst hr
    exact normalizeAccount_not_past now r t hrl

/-- Normalization is idempotent: re-normalizing a normalized document (at
the same instant) changes nothing — saved state is canonical. -/
theorem normalizeStorage_idem (now : Int) (p : ParsedJson) :
    normalizeStorage now (normalizeStorage now p).toParsed = normalizeStorage now p :=
  normalizeStorage_toParsed_of_normalized now _
    (normalizeStorage_version now p)
    (normalizeStorage_not_past now p)
    (normalizeStorage_activeIndex_invariant now p).1
    (normalizeStorage_activeIndex_invariant now p).2

/-! ### Refresh-loop lemmas -/

/-- The transformation applied to the account at index `i` by one pass of
the `refreshAllAccounts` loop. -/
def refreshStepAt (now : Int) (refreshOutcome : Nat → Option TokenRefreshResult)
    (i : Nat) (a : StoredAccount) : StoredAccount :=
  if shouldRefresh now a then applyRefreshOutcome (refreshOutcome i) a else a

/-- The loop body of `refreshLoop`, named for the proofs below. -/
def refreshFoldStep (now : Int) (refreshOutcome : Nat → Option TokenRefreshResult)
    (updated : List StoredAccount) (i : Nat) : List StoredAccount :=
  match updated.get? i with
  | none => updated
  | some a =>
    if shouldRefresh now a then
      updated.set i (applyRefreshOutcome (refreshOutcome i) a)
    else updated

theorem refreshLoop_eq_fold (now : Int)
    (refreshOutcome : Nat → Option TokenRefreshResult)
    (accounts : List StoredAccount) :
    refreshLoop now refreshOutcome accounts =
      (List.range accounts.length).foldl (refreshFoldStep now refreshOutcome) accounts := rfl

theorem refreshFoldStep_get?_ne (now : Int)
    (refreshOutcome : Nat → Option TokenRefreshResult)
    (updated : List StoredAccount) (i j : Nat) (hij : i ≠ j) :
    (refreshFoldStep now refreshOutcome updated i).get? j = updated.get? j := by
  unfold refreshFoldStep
  cases hget : updated.get? i with
  | none => rfl
  | some a =>
    by_cases hdue : shouldRefresh now a = true
    · simp only [hdue, if_true]
      exact List.get?_set_ne _ _ hij
    · simp [hdue]

theorem refreshFoldStep_get?_self (now : Int)
    (refreshOutcome : Nat → Option TokenRefreshResult)
    (updated : List StoredAccount) (i : Nat) :
    (refreshFoldStep now refreshOutcome updated i).get? i =
      (updated.get? i).map (refreshStepAt now refreshOutcome i) := by
  unfold refreshFoldStep
  cases hget : updated.get? i with
  | none => rw [hget]; rfl
  | some a =>
    obtain ⟨hlt, -⟩ := List.get?_eq_some.mp hget
    by_cases hdue : shouldRefresh now a = true
    · simp only [hdue, if_true]
      rw [List.get?_set_eq_of_lt _ hlt]
      simp [refreshStepAt, hdue]
    · simp [hdue, hget, refreshStepAt]
      rw [List.get?_eq_getElem?] at hget
      exact hget

theorem refreshFold_get?_ge (now : Int) (refreshOutcome : Nat → Option TokenRefreshResult) :
    ∀ (n : Nat) (init : List StoredAccount) (j : Nat), n ≤ j →
      ((List.range n).foldl (refreshFoldStep now refreshOutcome) init).get? j =
        init.get? j := by
  intro n
  induction n with
  | zero => intro init j _; rfl
  | succ n ih =>
    intro init j hj
    rw [List.range_succ, List.foldl_append, List.foldl_cons, List.foldl_nil]
    rw [refreshFoldStep_get?_ne now refreshOutcome _ n j (by omega)]
    exact ih init j (by omega)

theorem refreshFold_get?_lt (now : Int) (refreshOutcome : Nat → Option TokenRefreshResult) :
    ∀ (n : Nat) (init : List StoredAccount) (j : Nat), j < n →
      ((List.range n).foldl (refreshFoldStep now refreshOutcome) init).get? j =
        (init.get? j).map (refreshStepAt now refreshOutcome j) := by
  intro n
  induction n with
  | zero => intro init j hj; exact absurd hj (Nat.not_lt_zero j)
  | succ n ih =>
    intro init j hj
    rw [List.range_succ, List.foldl_append, List.foldl_cons, List.foldl_nil]
    by_cases hjn : j < n
    · rw [refreshFoldStep_get?_ne now refreshOutcome _ n j (by omega)]
      exact ih init j hjn
    · have hjeq : j = n := by omega
      subst hjeq
      rw [refreshFoldStep_get?_self]
      rw [refreshFold_get?_ge now refreshOutcome j init j (le_refl j)]

/-- Pointwise characterization of the `refreshAllAccounts` loop: every
index is rewritten exactly by its own due-test and its own refresh outcome,
independently of every other index's outcome. -/
theorem refreshLoop_get? (now : Int) (refreshOutcome : Nat → Option TokenRefreshResult)
    (accounts : List StoredAccount) (j : Nat) :
    (refreshLoop now refreshOutcome accounts).get? j =
      (accounts.get? j).map (refreshStepAt now refreshOutcome j) := by
  rw [refreshLoop_eq_fold]
  by_cases hj : j < accounts.length
  · exact refreshFold_get?_lt now refreshOutcome accounts.length accounts j hj
  · rw [refreshFold_get?_ge now refreshOutcome accounts.length accounts j (le_of_not_lt hj)]
    rw [List.get?_eq_none.mpr (le_of_not_lt hj)]
    rfl

/-! ## Claim theorems -/

/-- C1: for every credential list containing at least one eligible
credential (`enabled == true` and `rateLimitedUntil` absent or `≤ now` at
selection time), `selectBestAccount` returns the index of an eligible
credential — never a disabled or currently rate-limited one — regardless
of how the quota probes (`quota`) turn out. -/
theorem C1_selectBest_returns_eligible (now : Int)
    (quota : Nat → Option QuotaResponse) (accounts : List StoredAccount)
    (h : eligibleIndexes now accounts ≠ []) :
    selectBestAccount now quota accounts ∈ eligibleIndexes now accounts ∧
      ∃ a, accounts.get? (selectBestAccount now quota accounts) = some a ∧
        a.enabled = true ∧ ∀ t, a.rateLimitedUntil = some t → t ≤ now := by
  have hmem := selectBestAccount_mem now quota accounts h
  refine ⟨hmem, ?_⟩
  obtain ⟨a, ha, helig⟩ := mem_eligibleIndexes.mp hmem
  unfold isEligible at helig
  simp only [Bool.and_eq_true] at helig
  obtain ⟨hen, hrl⟩ := helig
  refine ⟨a, ha, hen, ?_⟩
  intro t ht
  rw [ht] at hrl
  exact of_decide_eq_true hrl

/-- Witness for C1: a single enabled credential, all probes failing. -/
theorem C1_witness :
    eligibleIndexes 1000 [{ refresh := some "r0", addedAt := 0, enabled := true }] ≠ [] ∧
      selectBestAccount 1000 (fun _ => none)
          [{ refresh := some "r0", addedAt := 0, enabled := true }] ∈
        eligibleIndexes 1000 [{ refresh := some "r0", addedAt := 0, enabled := true }] :=
  ⟨by decide,
   (C1_selectBest_returns_eligible 1000 (fun _ => none)
     [{ refresh := some "r0", addedAt := 0, enabled := true }] (by decide)).1⟩

/-- C2: whenever at least one quota probe succeeds with a utilization value
(`successResults ≠ []`), `selectBestAccount` returns an eligible probed
index whose utilization — the five-hour window's value when present, the
seven-day window's only otherwise, as `getUtilization` realises inside
`probedUtilization` — is minimal among all probe successes, with exact
utilization ties broken by smaller `lastUsed`, never-used credentials
(`lastUsedBot = ⊥`) ordering before all used ones. -/
theorem C2_selectBest_min_utilization (now : Int)
    (quota : Nat → Option QuotaResponse) (accounts : List StoredAccount)
    (h : successResults now quota accounts ≠ []) :
    ∃ u, selectBestAccount now quota accounts ∈ eligibleIndexes now accounts ∧
      probedUtilization quota accounts (selectBestAccount now quota accounts) = some u ∧
      ∀ j ∈ eligibleIndexes now accounts, ∀ v, probedUtilization quota accounts j = some v →
        u < v ∨ (u = v ∧
          lastUsedBot accounts (selectBestAccount now quota accounts) ≤
            lastUsedBot accounts j) :=
  selectBestAccount_min now quota accounts h

/-- The three-credential pool of the spec's utilization example. -/
def c2Accounts : List StoredAccount :=
  [{ refresh := some "r0", access := some "a0", addedAt := 0, enabled := true },
   { refresh := some "r1", access := some "a1", addedAt := 0, enabled := true },
   { refresh := some "r2", access := some "a2", addedAt := 0, enabled := true }]

/-- Probe outcomes 80 / 20 / 60 for `c2Accounts`. -/
def c2Quota : Nat → Option QuotaResponse := fun i =>
  if i = 0 then some { five_hour := some { utilization := 80 } }
  else if i = 1 then some { five_hour := some { utilization := 20 } }
  else if i = 2 then some { five_hour := some { utilization := 60 } }
  else none

/-- Witness for C2: utilizations 80 / 20 / 60 select the 20-credential. -/
theorem C2_witness :
    successResults 1000 c2Quota c2Accounts ≠ [] ∧
      (∃ u, selectBestAccount 1000 c2Quota c2Accounts ∈ eligibleIndexes 1000 c2Accounts ∧
        probedUtilization c2Quota c2Accounts (selectBestAccount 1000 c2Quota c2Accounts) =
          some u ∧
        ∀ j ∈ eligibleIndexes 1000 c2Accounts, ∀ v,
          probedUtilization c2Quota c2Accounts j = some v →
            u < v ∨ (u = v ∧
              lastUsedBot c2Accounts (selectBestAccount 1000 c2Quota c2Accounts) ≤
                lastUsedBot c2Accounts j)) :=
  ⟨by decide, C2_selectBest_min_utilization 1000 c2Quota c2Accounts (by decide)⟩

/-- C4: when the eligible set is non-empty and no quota probe yields a
utilization value, `selectBestAccount` falls back to round-robin: it
returns an eligible index; a never-used eligible credential when one
exists; otherwise an eligible credential with the smallest `lastUsed`
(absent modelled as `⊤`, which the all-used hypothesis rules out). -/
theorem C4_roundRobin_fallback (now : Int)
    (quota : Nat → Option QuotaResponse) (accounts : List StoredAccount)
    (helig : eligibleIndexes now accounts ≠ [])
    (hfail : ∀ i ∈ eligibleIndexes now accounts,
      probedUtilization quota accounts i = none) :
    selectBestAccount now quota accounts ∈ eligibleIndexes now accounts ∧
      ((∃ i ∈ eligibleIndexes now accounts,
          ((accounts.get? i).bind (·.lastUsed)) = none) →
        ((accounts.get? (selectBestAccount now quota accounts)).bind (·.lastUsed)) = none) ∧
      ((∀ i ∈ eligibleIndexes now accounts,
          ((accounts.get? i).bind (·.lastUsed)) ≠ none) →
        ∀ i ∈ eligibleIndexes now accounts,
          lastUsedTop accounts (selectBestAccount now quota accounts) ≤
            lastUsedTop accounts i) := by
  have hsucc : successResults now quota accounts = [] := by
    cases hs : successResults now quota accounts with
    | nil => rfl
    | cons s rest =>
      have hmem : s ∈ successResults now quota accounts := by rw [hs]; simp
      obtain ⟨hse, hsp⟩ := mem_successResults.mp hmem
      rw [hfail s.index hse] at hsp
      simp at hsp
  rw [selectBestAccount_eq_of_empty_success (eligibleIndexes_ne_nil_length helig)
    (isEmpty_false_of_ne_nil helig) hsucc]
  exact pickRoundRobinIndex_spec accounts _ helig

/-- All-probes-failing pool for the C4 witness: `lastUsed` 50 / 20 / 90. -/
def c4Accounts : List StoredAccount :=
  [{ refresh := some "r0", addedAt := 0, lastUsed := some 50, enabled := true },
   { refresh := some "r1", addedAt := 0, lastUsed := some 20, enabled := true },
   { refresh := some "r2", addedAt := 0, lastUsed := some 90, enabled := true }]

/-- Witness for C4: every probe fails; the least-recently-used credential
(index 1, `lastUsed = 20`) bounds all eligible `lastUsed` values. -/
theorem C4_witness :
    eligibleIndexes 1000 c4Accounts ≠ [] ∧
      selectBestAccount 1000 (fun _ => none) c4Accounts ∈ eligibleIndexes 1000 c4Accounts ∧
      ((∃ i ∈ eligibleIndexes 1000 c4Accounts,
          ((c4Accounts.get? i).bind (·.lastUsed)) = none) →
        ((c4Accounts.get? (selectBestAccount 1000 (fun _ => none) c4Accounts)).bind
          (·.lastUsed)) = none) ∧
      ((∀ i ∈ eligibleIndexes 1000 c4Accounts,
          ((c4Accounts.get? i).bind (·.lastUsed)) ≠ none) →
        ∀ i ∈ eligibleIndexes 1000 c4Accounts,
          lastUsedTop c4Accounts (selectBestAccount 1000 (fun _ => none) c4Accounts) ≤
            lastUsedTop c4Accounts i) :=
  ⟨by decide, C4_roundRobin_fallback 1000 (fun _ => none) c4Accounts (by decide)
    (by decide)⟩

/-- C5 counterexample: a record whose `rateLimitedUntil` equals the load
time exactly (`1000` at `now = 1000`, i.e. at-or-before now) is NOT
cleared: `normalizeStorage` deletes the field only under the strict
comparison `rateLimitedUntil < Date.now()`, so the claim's "at or before"
fails at equality. -/
theorem C5_counterexample :
    ¬ (∀ d, loadAccounts 1000 (some (.json (.object
          (some [{ rateLimitedUntil := some 1000 }]) (some 0)))) = Except.ok d →
        ∀ a ∈ d.accounts, a.rateLimitedUntil = none) := by
  intro hclaim
  have h1 := hclaim _ rfl
  have h2 := h1 (normalizeAccount 1000 { rateLimitedUntil := some 1000 }) (by decide)
  exact absurd h2 (by decide)

/-- C5 (amended): `load` clears a `rateLimitedUntil` strictly before the
load time and preserves unchanged one at or after the load time (in
particular every strictly-future value). -/
theorem C5_load_rateLimit_normalization (now : Int) (raws : List RawAccount)
    (ai : Option Int) (r : RawAccount) (t : Int)
    (hmem : r ∈ raws) (hrl : r.rateLimitedUntil = some t) :
    ∃ d, loadAccounts now (some (.json (.object (some raws) ai))) = Except.ok d ∧
      normalizeAccount now r ∈ d.accounts ∧
      (t < now → (normalizeAccount now r).rateLimitedUntil = none) ∧
      (now ≤ t → (normalizeAccount now r).rateLimitedUntil = some t) := by
  refine ⟨_, rfl, ?_, ?_, ?_⟩
  · exact List.mem_map_of_mem _ hmem
  · intro h; exact normalizeAccount_clears_past now r t hrl h
  · intro h; exact normalizeAccount_keeps_future now r t hrl h

/-- Witness for C5 (amended): a strictly-future cool-down (`2000` at
`now = 1000`) survives the load, a strictly-past one (`500`) is cleared. -/
theorem C5_witness :
    (({ rateLimitedUntil := some 2000 } : RawAccount) ∈
        [({ rateLimitedUntil := some 2000 } : RawAccount),
         ({ rateLimitedUntil := some 500 } : RawAccount)] ∧
      ∃ d, loadAccounts 1000 (some (.json (.object
          (some [({ rateLimitedUntil := some 2000 } : RawAccount),
                 ({ rateLimitedUntil := some 500 } : RawAccount)]) (some 0)))) =
            Except.ok d ∧
        normalizeAccount 1000 ({ rateLimitedUntil := some 2000 } : RawAccount) ∈ d.accounts ∧
        ((2000 : Int) < 1000 →
          (normalizeAccount 1000 ({ rateLimitedUntil := some 2000 } : RawAccount)).rateLimitedUntil = none) ∧
        ((1000 : Int) ≤ 2000 →
          (normalizeAccount 1000 ({ rateLimitedUntil := some 2000 } : RawAccount)).rateLimitedUntil = some 2000)) ∧
      ∃ d, loadAccounts 1000 (some (.json (.object
          (some [({ rateLimitedUntil := some 2000 } : RawAccount),
                 ({ rateLimitedUntil := some 500 } : RawAccount)]) (some 0)))) =
            Except.ok d ∧
        normalizeAccount 1000 ({ rateLimitedUntil := some 500 } : RawAccount) ∈ d.accounts ∧
        ((500 : Int) < 1000 →
          (normalizeAccount 1000 ({ rateLimitedUntil := some 500 } : RawAccount)).rateLimitedUntil = none) ∧
        ((1000 : Int) ≤ 500 →
          (normalizeAccount 1000 ({ rateLimitedUntil := some 500 } : RawAccount)).rateLimitedUntil = some 500) :=
  ⟨⟨by decide,
    C5_load_rateLimit_normalization 1000 _ (some 0) _ 2000 (by decide) rfl⟩,
   C5_load_rateLimit_normalization 1000 _ (some 0) _ 500 (by decide) rfl⟩

/-- C6: for an already-normalized document (version 1, every
`rateLimitedUntil` strictly in the future, `activeIndex` in range — the
typed document always carries `enabled` and `addedAt`),
`loadAccounts ∘ saveAccounts` is the identity; moreover `saveAccounts`
re-applies the normalization pass before writing, so every document it
writes is a fixpoint of normalization (canonical). -/
theorem C6_load_save_roundtrip (now : Int) (d : AccountStorage)
    (hver : d.version = 1)
    (hrl : ∀ a ∈ d.accounts, ∀ t, a.rateLimitedUntil = some t → now < t)
    (hidx0 : d.accounts = [] → d.activeIndex = 0)
    (hidx : d.accounts ≠ [] → 0 ≤ d.activeIndex ∧ d.activeIndex < (d.accounts.length : Int)) :
    loadAccounts now (some (.json (saveAccounts now d).toParsed)) = Except.ok d ∧
      ∀ e : AccountStorage,
        normalizeStorage now (saveAccounts now e).toParsed = saveAccounts now e := by
  have hnorm : normalizeStorage now d.toParsed = d :=
    normalizeStorage_toParsed_of_normalized now d hver
      (fun a ha t ht => lt_asymm (hrl a ha t ht)) hidx0 hidx
  constructor
  · show Except.ok (normalizeStorage now (saveAccounts now d).toParsed) = Except.ok d
    rw [show saveAccounts now d = normalizeStorage now d.toParsed from rfl,
      normalizeStorage_idem, hnorm]
  · intro e
    exact normalizeStorage_idem now e.toParsed

/-- A normalized one-credential document for the C6 witness. -/
def c6Doc : AccountStorage :=
  { version := 1,
    accounts := [{ refresh := some "r0", addedAt := 5, enabled := true }],
    activeIndex := 0 }

/-- Witness for C6 on a concrete normalized document. -/
theorem C6_witness :
    loadAccounts 1000 (some (.json (saveAccounts 1000 c6Doc).toParsed)) =
      Except.ok c6Doc :=
  (C6_load_save_roundtrip 1000 c6Doc rfl
    (by intro a ha t ht
        rcases List.mem_singleton.mp ha with rfl
        simp [c6Doc] at ht)
    (by intro h; exact absurd h (by decide))
    (by intro _; exact ⟨by decide, by decide⟩)).1

/-- C7: removing an in-range index from a document satisfying the
`activeIndex` invariant deletes exactly that credential and adjusts
`activeIndex`: minus one when the removal is below it; re-clamped to the
new last index when it falls out of range (`0` when the list empties);
and the invariant `0 ≤ activeIndex < length` holds again whenever the
remaining list is non-empty. -/
theorem C7_remove_adjusts_activeIndex (now : Int) (index : Int) (data : AccountStorage)
    (hidx : 0 ≤ data.activeIndex ∧ data.activeIndex < (data.accounts.length : Int))
    (hin : 0 ≤ index ∧ index < (data.accounts.length : Int)) :
    (removeAccount now index data).1.accounts = data.accounts.eraseIdx index.toNat ∧
      (index < data.activeIndex →
        (removeAccount now index data).1.activeIndex = data.activeIndex - 1) ∧
      (¬ index < data.activeIndex → data.accounts.eraseIdx index.toNat ≠ [] →
        (removeAccount now index data).1.activeIndex =
          min data.activeIndex (((data.accounts.eraseIdx index.toNat).length : Int) - 1)) ∧
      ((removeAccount now index data).1.accounts = [] →
        (removeAccount now index data).1.activeIndex = 0) ∧
      ((removeAccount now index data).1.accounts ≠ [] →
        0 ≤ (removeAccount now index data).1.activeIndex ∧
          (removeAccount now index data).1.activeIndex <
            (((removeAccount now index data).1.accounts.length : Int))) := by
  obtain ⟨hai0, hailt⟩ := hidx
  obtain ⟨hi0, hilt⟩ := hin
  have hguard : ¬ (index < 0 ∨ (data.accounts.length : Int) ≤ index) := by omega
  have hklt : index.toNat < data.accounts.length := by omega
  have herase : (data.accounts.eraseIdx index.toNat).length = data.accounts.length - 1 :=
    List.length_eraseIdx_of_lt hklt
  have herase' : ((data.accounts.eraseIdx index.toNat).length : Int) =
      (data.accounts.length : Int) - 1 := by omega
  have hres : (removeAccount now index data).1 =
      { version := data.version,
        accounts := data.accounts.eraseIdx index.toNat,
        activeIndex :=
          if (data.accounts.eraseIdx index.toNat).length = 0 then 0
          else if index < data.activeIndex then data.activeIndex - 1
          else if ((data.accounts.eraseIdx index.toNat).length : Int) ≤ data.activeIndex then
            ((data.accounts.eraseIdx index.toNat).length : Int) - 1
          else data.activeIndex } := by
    unfold removeAccount
    rw [if_neg hguard]
  have haccs : (removeAccount now index data).1.accounts =
      data.accounts.eraseIdx index.toNat := by rw [hres]
  have hai : (removeAccount now index data).1.activeIndex =
      if (data.accounts.eraseIdx index.toNat).length = 0 then 0
      else if index < data.activeIndex then data.activeIndex - 1
      else if ((data.accounts.eraseIdx index.toNat).length : Int) ≤ data.activeIndex then
        ((data.accounts.eraseIdx index.toNat).length : Int) - 1
      else data.activeIndex := by rw [hres]
  refine ⟨haccs, ?_, ?_, ?_, ?_⟩
  · intro hlt
    rw [hai, if_neg (by omega), if_pos hlt]
  · intro hge hne
    have h0 : (data.accounts.eraseIdx index.toNat).length ≠ 0 :=
      fun hz => hne (List.length_eq_zero.mp hz)
    rw [hai, if_neg h0, if_neg hge]
    split_ifs with hclamp <;> omega
  · intro hempty
    rw [haccs] at hempty
    rw [hai, if_pos (by rw [hempty]; rfl)]
  · intro hne
    rw [haccs] at hne
    have h0 : (data.accounts.eraseIdx index.toNat).length ≠ 0 :=
      fun hz => hne (List.length_eq_zero.mp hz)
    rw [hai, haccs, if_neg h0]
    split_ifs with hlt hclamp <;> omega

/-- Two-credential document used by the C7 witness. -/
def c7Doc : AccountStorage :=
  { version := 1,
    accounts := [{ refresh := some "r0", addedAt := 0, enabled := true },
                 { refresh := some "r1", addedAt := 0, enabled := true },
                 { refresh := some "r2", addedAt := 0, enabled := true }],
    activeIndex := 2 }

/-- Witness for C7: removing index 0 below `activeIndex = 2` shifts it to 1
and keeps the invariant. -/
theorem C7_witness :
    (removeAccount 1000 0 c7Doc).1.accounts = c7Doc.accounts.eraseIdx 0 ∧
      ((0 : Int) < c7Doc.activeIndex →
        (removeAccount 1000 0 c7Doc).1.activeIndex = c7Doc.activeIndex - 1) ∧
      ((removeAccount 1000 0 c7Doc).1.accounts ≠ [] →
        0 ≤ (removeAccount 1000 0 c7Doc).1.activeIndex ∧
          (removeAccount 1000 0 c7Doc).1.activeIndex <
            (((removeAccount 1000 0 c7Doc).1.accounts.length : Int))) :=
  ⟨(C7_remove_adjusts_activeIndex 1000 0 c7Doc (by constructor <;> decide)
      (by constructor <;> decide)).1,
   (C7_remove_adjusts_activeIndex 1000 0 c7Doc (by constructor <;> decide)
      (by constructor <;> decide)).2.1,
   (C7_remove_adjusts_activeIndex 1000 0 c7Doc (by constructor <;> decide)
      (by constructor <;> decide)).2.2.2.2⟩

/-- C10: `removeAccount` with an out-of-range index returns the loaded
document unchanged and performs no write (`none` in the write slot). -/
theorem C10_remove_out_of_range_noop (now : Int) (index : Int) (data : AccountStorage)
    (h : index < 0 ∨ (data.accounts.length : Int) ≤ index) :
    removeAccount now index data = (data, none) := by
  unfold removeAccount
  rw [if_pos h]

/-- Witness for C10: index 5 on a 3-credential document. -/
theorem C10_witness : removeAccount 1000 5 c7Doc = (c7Doc, none) :=
  C10_remove_out_of_range_noop 1000 5 c7Doc (by right; decide)

/-- C8: content that `JSON.parse` rejects makes `loadAccounts` fail with
the parse error (the spec's `ConfigCorruptError`), and the error
propagates uncaught through `AccountManager.init` to the caller — it is
neither retried nor converted into a usable document. -/
theorem C8_malformed_load_fails (now : Int) (quota : Nat → Option QuotaResponse) :
    loadAccounts now (some PersistedContent.invalidJson) =
        Except.error LoadError.syntaxError ∧
      accountManagerInit now quota (some PersistedContent.invalidJson) =
        Except.error LoadError.syntaxError :=
  ⟨rfl, rfl⟩

/-! ### `handleRateLimit` helper lemmas -/

/-- The mutation `current.rateLimitedUntil = Date.now() + Math.max(0, retryAfterMs)`
performed by `handleRateLimit` on the active credential. -/
def markRateLimited (now retryAfterMs : Int) (a : StoredAccount) : StoredAccount :=
  { a with rateLimitedUntil := some (now + max 0 retryAfterMs) }

theorem handleRateLimit_exhausted (now : Int) (quota : Nat → Option QuotaResponse)
    (retryAfterMs : Int) (m : AccountManagerState) (current : StoredAccount)
    (hactive : m.accounts.get? m.activeIndex = some current)
    (hempty : eligibleIndexes now
      (m.accounts.set m.activeIndex (markRateLimited now retryAfterMs current)) = []) :
    handleRateLimit now quota retryAfterMs m =
      (⟨m.accounts.set m.activeIndex (markRateLimited now retryAfterMs current),
          m.activeIndex⟩,
       [managerPersistContent now
          ⟨m.accounts.set m.activeIndex (markRateLimited now retryAfterMs current),
            m.activeIndex⟩],
       none) := by
  unfold handleRateLimit markRateLimited at *
  rw [hactive]
  simp only [hempty, List.isEmpty_nil, if_true]

theorem handleRateLimit_switch (now : Int) (quota : Nat → Option QuotaResponse)
    (retryAfterMs : Int) (m : AccountManagerState) (current : StoredAccount)
    (hactive : m.accounts.get? m.activeIndex = some current)
    (hne : eligibleIndexes now
      (m.accounts.set m.activeIndex (markRateLimited now retryAfterMs current)) ≠ []) :
    handleRateLimit now quota retryAfterMs m =
      (⟨m.accounts.set m.activeIndex (markRateLimited now retryAfterMs current),
          selectBestAccount now quota
            (m.accounts.set m.activeIndex (markRateLimited now retryAfterMs current))⟩,
       [managerPersistContent now
          ⟨m.accounts.set m.activeIndex (markRateLimited now retryAfterMs current),
            m.activeIndex⟩,
        managerPersistContent now
          ⟨m.accounts.set m.activeIndex (markRateLimited now retryAfterMs current),
            selectBestAccount now quota
              (m.accounts.set m.activeIndex (markRateLimited now retryAfterMs current))⟩],
       (m.accounts.set m.activeIndex (markRateLimited now retryAfterMs current)).get?
         (selectBestAccount now quota
           (m.accounts.set m.activeIndex (markRateLimited now retryAfterMs current)))) := by
  have hmem := selectBestAccount_mem now quota
    (m.accounts.set m.activeIndex (markRateLimited now retryAfterMs current)) hne
  unfold markRateLimited at *
  unfold handleRateLimit
  rw [hactive]
  simp only [isEmpty_false_of_ne_nil hne, Bool.false_eq_true, if_false, if_pos hmem]

/-- C3 counterexample.  First conjunct: on a single-credential pool with
`retryAfterMs = 0` the call does NOT return none — the marked credential's
`rateLimitedUntil = now` is not in the future, so the credential stays
eligible, is re-selected and returned, contradicting the claim's "on a
single-credential pool … returns none".  Second conjunct: with
`retryAfterMs = -5` the credential's `rateLimitedUntil` is set to
`now = 1000` (via `Math.max(0, retryAfterMs)`), not to
`now + retryAfterMs = 995` as the claim's "exactly now + retryAfterMs"
demands. -/
theorem C3_counterexample :
    (handleRateLimit 1000 (fun _ => none) 0
        { accounts := [{ refresh := some "r0", addedAt := 0, enabled := true }],
          activeIndex := 0 }).2.2 ≠ none ∧
      (handleRateLimit 1000 (fun _ => none) (-5)
          { accounts := [{ refresh := some "r0", addedAt := 0, enabled := true }],
            activeIndex := 0 }).1.accounts.map (·.rateLimitedUntil) = [some 1000] := by
  constructor
  · decide
  · decide

/-- C3 (amended): for every pool with an active credential,
`handleRateLimit(retryAfterMs)` sets the active credential's
`rateLimitedUntil` to exactly `now + max(0, retryAfterMs)` — equal to
`now + retryAfterMs` whenever `retryAfterMs ≥ 0` — and persists; then, if
any credential is still eligible after the marking (for `retryAfterMs > 0`
this excludes the marked credential itself; for `retryAfterMs = 0` it does
not), it switches `activeIndex` to the index chosen by
`selectBestAccount`, persists again, and returns that credential; if no
credential remains eligible — in particular on a single-credential pool
with `retryAfterMs > 0` — it leaves `activeIndex` unchanged, keeps the
now-rate-limited credential active, and returns none. -/
theorem C3_handleRateLimit (now : Int) (quota : Nat → Option QuotaResponse)
    (retryAfterMs : Int) (m : AccountManagerState) (current : StoredAccount)
    (hactive : m.accounts.get? m.activeIndex = some current) :
    (handleRateLimit now quota retryAfterMs m).1.accounts.get? m.activeIndex =
        some (markRateLimited now retryAfterMs current) ∧
      (eligibleIndexes now (m.accounts.set m.activeIndex
          (markRateLimited now retryAfterMs current)) = [] →
        (handleRateLimit now quota retryAfterMs m).1.activeIndex = m.activeIndex ∧
          (handleRateLimit now quota retryAfterMs m).2.2 = none ∧
          (handleRateLimit now quota retryAfterMs m).2.1.length = 1) ∧
      (eligibleIndexes now (m.accounts.set m.activeIndex
          (markRateLimited now retryAfterMs current)) ≠ [] →
        (handleRateLimit now quota retryAfterMs m).1.activeIndex =
            selectBestAccount now quota (m.accounts.set m.activeIndex
              (markRateLimited now retryAfterMs current)) ∧
          (handleRateLimit now quota retryAfterMs m).1.activeIndex ∈
            eligibleIndexes now (m.accounts.set m.activeIndex
              (markRateLimited now retryAfterMs current)) ∧
          (handleRateLimit now quota retryAfterMs m).2.2 =
            (m.accounts.set m.activeIndex (markRateLimited now retryAfterMs current)).get?
              ((handleRateLimit now quota retryAfterMs m).1.activeIndex) ∧
          (handleRateLimit now quota retryAfterMs m).2.1.length = 2) := by
  obtain ⟨hlt, -⟩ := List.get?_eq_some.mp hactive
  refine ⟨?_, ?_, ?_⟩
  · by_cases hemp : eligibleIndexes now (m.accounts.set m.activeIndex
      (markRateLimited now retryAfterMs current)) = []
    · rw [handleRateLimit_exhausted now quota retryAfterMs m current hactive hemp]
      exact List.get?_set_eq_of_lt _ hlt
    · rw [handleRateLimit_switch now quota retryAfterMs m current hactive hemp]
      exact List.get?_set_eq_of_lt _ hlt
  · intro hemp
    rw [handleRateLimit_exhausted now quota retryAfterMs m current hactive hemp]
    exact ⟨rfl, rfl, rfl⟩
  · intro hne
    have hmem := selectBestAccount_mem now quota
      (m.accounts.set m.activeIndex (markRateLimited now retryAfterMs current)) hne
    rw [handleRateLimit_switch now quota retryAfterMs m current hactive hne]
    exact ⟨rfl, hmem, rfl, rfl⟩

/-- The two-credential manager of the C3 witness. -/
def c3Manager : AccountManagerState :=
  { accounts := [{ refresh := some "r0", addedAt := 0, enabled := true },
                 { refresh := some "r1", addedAt := 0, enabled := true }],
    activeIndex := 0 }

/-- Witness for C3 (amended): marking credential 0 with a 30 s cool-down on
a two-credential pool records `rateLimitedUntil = 1000 + 30000`, switches
to the still-eligible credential, and persists twice. -/
theorem C3_witness :
    (handleRateLimit 1000 (fun _ => none) 30000 c3Manager).1.accounts.get? 0 =
        some (markRateLimited 1000 30000
          { refresh := some "r0", addedAt := 0, enabled := true }) ∧
      (handleRateLimit 1000 (fun _ => none) 30000 c3Manager).1.activeIndex =
          selectBestAccount 1000 (fun _ => none) (c3Manager.accounts.set 0
            (markRateLimited 1000 30000
              { refresh := some "r0", addedAt := 0, enabled := true })) ∧
      (handleRateLimit 1000 (fun _ => none) 30000 c3Manager).2.1.length = 2 :=
  ⟨(C3_handleRateLimit 1000 (fun _ => none) 30000 c3Manager _ rfl).1,
   ((C3_handleRateLimit 1000 (fun _ => none) 30000 c3Manager _ rfl).2.2 (by decide)).1,
   ((C3_handleRateLimit 1000 (fun _ => none) 30000 c3Manager _ rfl).2.2 (by decide)).2.2.2⟩

/-- C9: the bulk refresh pass attempts a refresh exactly for the
credentials whose expiry is absent or within the 60 s horizon of now
(`shouldRefresh`); each index's account is rewritten by its own refresh
outcome — a caught failure (`refreshOutcome j = none`) leaves that account
unchanged and never affects any other index — and the pool is persisted
exactly once, after the whole pass, with the fully-updated list. -/
theorem C9_refresh_pass (now : Int)
    (refreshOutcome : Nat → Option TokenRefreshResult)
    (accounts : List StoredAccount) (activeIndex : Int) :
    (refreshAllAccounts now refreshOutcome accounts activeIndex).2.1 =
        (List.range accounts.length).filter (fun i =>
          match accounts.get? i with
          | some a => shouldRefresh now a
          | none => false) ∧
      (∀ j a, accounts.get? j = some a → shouldRefresh now a = false →
        (refreshAllAccounts now refreshOutcome accounts activeIndex).1.get? j = some a) ∧
      (∀ j a, accounts.get? j = some a → shouldRefresh now a = true →
        (refreshAllAccounts now refreshOutcome accounts activeIndex).1.get? j =
          some (applyRefreshOutcome (refreshOutcome j) a)) ∧
      (refreshAllAccounts now refreshOutcome accounts activeIndex).2.2 =
        [saveAccounts now
          ⟨1, (refreshAllAccounts now refreshOutcome accounts activeIndex).1,
            activeIndex⟩] := by
  refine ⟨rfl, ?_, ?_, rfl⟩
  · intro j a hget hdue
    show (refreshLoop now refreshOutcome accounts).get? j = some a
    rw [refreshLoop_get?, hget]
    simp [refreshStepAt, hdue]
  · intro j a hget hdue
    show (refreshLoop now refreshOutcome accounts).get? j =
      some (applyRefreshOutcome (refreshOutcome j) a)
    rw [refreshLoop_get?, hget]
    simp [refreshStepAt, hdue]

/-- Accounts for the C9 witness: index 0 not due (`expires` far out),
index 1 due but its refresh fails, index 2 due (`expires` absent) and its
refresh succeeds. -/
def c9Accounts : List StoredAccount :=
  [{ refresh := some "r0", expires := some 100000, addedAt := 0, enabled := true },
   { refresh := some "r1", expires := some 50000, addedAt := 0, enabled := true },
   { refresh := some "r2", addedAt := 0, enabled := true }]

/-- Refresh outcomes for the C9 witness: index 1 throws (caught), others
succeed. -/
def c9Outcome : Nat → Option TokenRefreshResult := fun i =>
  if i = 1 then none else some { refresh := "nr", access := "na", expires := 99000 }

/-- Witness for C9: the not-due account is untouched, the failing account
is untouched, and the due succeeding account is rewritten — the failure at
index 1 does not stop index 2 from being processed. -/
theorem C9_witness :
    (refreshAllAccounts 1000 c9Outcome c9Accounts 0).1.get? 0 =
        some { refresh := some "r0", expires := some 100000, addedAt := 0, enabled := true } ∧
      (refreshAllAccounts 1000 c9Outcome c9Accounts 0).1.get? 1 =
        some (applyRefreshOutcome (c9Outcome 1)
          { refresh := some "r1", expires := some 50000, addedAt := 0, enabled := true }) ∧
      (refreshAllAccounts 1000 c9Outcome c9Accounts 0).1.get? 2 =
        some (applyRefreshOutcome (c9Outcome 2)
          { refresh := some "r2", addedAt := 0, enabled := true }) :=
  ⟨(C9_refresh_pass 1000 c9Outcome c9Accounts 0).2.1 0
      { refresh := some "r0", expires := some 100000, addedAt := 0, enabled := true }
      rfl (by decide),
   (C9_refresh_pass 1000 c9Outcome c9Accounts 0).2.2.1 1
      { refresh := some "r1", expires := some 50000, addedAt := 0, enabled := true }
      rfl (by decide),
   (C9_refresh_pass 1000 c9Outcome c9Accounts 0).2.2.1 2
      { refresh := some "r2", addedAt := 0, enabled := true }
      rfl (by decide)⟩
